import Mathlib

/-!
Shallow embedding of the rbmarshal Ruby-Marshal decoder (rbmarshal.go).

The byte stream is a list of naturals (each byte is < 256 in any real
stream); the bufio.Reader cursor, the LoadArg symbol table and the
console output of fmt.Printf are bundled in a state record.  Every Go
function returning (value, error) becomes a function into `Res`, whose
`err` constructor keeps the value returned alongside the error, exactly
as Go does; Go run-time panics (slice index out of range, make with a
negative length, the explicit panic in readBignum) become the `panic`
constructor.  Go 64-bit integer arithmetic is modelled on naturals in
two's-complement representation with explicit reduction mod 2^64.

Recursion in the source (read -> readArray/readHash/readIvar -> read) is
unbounded in Go; here the recursive knot is tied with a fuel parameter
(`read fuel`), all other functions being non-recursive.  `oom` marks
fuel exhaustion and is unreachable for adequate fuel; `Load` supplies
fuel larger than the input, which one tag byte per `read` call makes
adequate.
-/

/-- Decoder state: remaining input bytes, the LoadArg symbol table and
the lines printed to standard output. -/
structure St where
  input : List Nat
  syms : List String
  out : List String
deriving DecidableEq

/-- Errors: io.EOF, io.ErrUnexpectedEOF and the fmt.Errorf / errors.New
format errors.  The specification groups the first two as its single
UnexpectedEndOfInput kind (spec section 7). -/
inductive Err where
  | eof : Err
  | unexpectedEOF : Err
  | format : String → Err
deriving DecidableEq

/-- True for the two end-of-input errors, the ones the spec calls
UnexpectedEndOfInput. -/
def Err.isEndOfInput : Err → Bool
  | .eof => true
  | .unexpectedEOF => true
  | .format _ => false

/-- Result of a Go (value, error) function: `ok` on nil error, `err`
keeps the value Go returns next to the error, `panic` is a Go run-time
panic, and `oom` is the fuel-exhaustion marker of the embedding (never
produced with adequate fuel). -/
inductive Res (α : Type) where
  | ok : α → St → Res α
  | err : α → Err → St → Res α
  | panic : String → Res α
  | oom : Res α
deriving DecidableEq

/-- Map a function over the carried value (Go implicit conversion of a
typed return value to interface{}, on both the ok and the error path). -/
def mapRV {α β : Type} (g : α → β) : Res α → Res β
  | .ok v s => .ok (g v) s
  | .err v e s => .err (g v) e s
  | .panic m => .panic m
  | .oom => .oom

/-- Decoded value: the Go interface{} results of the decoder.  Floats
are kept as their source text (host floating point is out of scope) and
compiled regexps as their rewritten pattern string. -/
inductive RValue where
  | nil : RValue
  | bool : Bool → RValue
  | int : Int → RValue
  | float : String → RValue
  | str : String → RValue
  | arr : List RValue → RValue
  | hash : List (String × RValue) → RValue
  | regexp : String → RValue

/-- bufio.Reader.ReadByte: one byte, or (0, io.EOF) at end of input. -/
def readByte (s : St) : Res Nat :=
  match s.input with
  | [] => .err 0 .eof s
  | b :: rest => .ok b ⟨rest, s.syms, s.out⟩

/-- io.ReadFull into a k-byte buffer: all k bytes, or io.EOF when
nothing was read, or io.ErrUnexpectedEOF after a partial read (the
partially filled buffer is consumed). -/
def readFullN (k : Nat) (s : St) : Res (List Nat) :=
  if k ≤ s.input.length then .ok (s.input.take k) ⟨s.input.drop k, s.syms, s.out⟩
  else if s.input.isEmpty then .err [] .eof s
  else .err s.input .unexpectedEOF ⟨[], s.syms, s.out⟩

/-- bufio.Reader.Peek k: the next k bytes without consuming them, or
the available bytes together with io.EOF when fewer remain. -/
def peekN (k : Nat) (s : St) : Res (List Nat) :=
  if k ≤ s.input.length then .ok (s.input.take k) s
  else .err (s.input.take k) .eof s

/-! Type tag bytes (source constants, numeric values of the ASCII
characters used in rbmarshal.go). -/

def typeNil : Nat := 48
def typeTrue : Nat := 84
def typeFalse : Nat := 70
def typeFixnum : Nat := 105
def typeFloat : Nat := 102
def typeBignum : Nat := 108
def bignumPos : Nat := 43
def bignumNeg : Nat := 45
def typeString : Nat := 34
def typeRegexp : Nat := 47
def typeArray : Nat := 91
def typeHash : Nat := 123
def typeSymbol : Nat := 58
def typeSymlink : Nat := 59
def typeIvar : Nat := 73
def encStart : Nat := 6
def semicolon : Nat := 59
def colon : Nat := 58

/-! Go 64-bit integer arithmetic, on the two's-complement natural
representation in [0, 2^64). -/

/-- 2^64, the modulus of the Go int type. -/
def w64 : Nat := 2 ^ 64

/-- Go left shift of an int, truncated to 64 bits (shifts by 64 or more
produce 0, as in Go). -/
def shl64 (x s : Nat) : Nat := (x <<< s) % w64

/-- Go bitwise complement of an int (xor with the all-ones word). -/
def not64 (x : Nat) : Nat := x ^^^ (w64 - 1)

/-- The signed value of a 64-bit two's-complement representation. -/
def toInt64 (x : Nat) : Int := if x < 2 ^ 63 then (x : Int) else (x : Int) - (w64 : Int)

/-- Go int(int8(b)): reinterpret a byte as a signed 8-bit value. -/
def int8 (b : Nat) : Int :=
  if b % 256 < 128 then ((b % 256 : Nat) : Int) else ((b % 256 : Nat) : Int) - 256

/-- Positive multi-byte loop of readFixnum: for each remaining byte,
n |= int(b) << (8*i).  Arguments: bytes still to read, current index i,
accumulator n (Go int representation). -/
def fixnumPosLoop : Nat → Nat → Nat → St → Res Int
  | 0, _, n, s => .ok (toInt64 n) s
  | cnt + 1, i, n, s =>
    match readByte s with
    | .err _ e s1 => .err 0 e s1
    | .panic m => .panic m
    | .oom => .oom
    | .ok b s1 => fixnumPosLoop cnt (i + 1) (Nat.lor n (shl64 b (8 * i))) s1

/-- Negative multi-byte loop of readFixnum: n starts at -1 and for each
byte first n &= ^(0xFF << (8*i)), then n |= int(b) << (8*i). -/
def fixnumNegLoop : Nat → Nat → Nat → St → Res Int
  | 0, _, n, s => .ok (toInt64 n) s
  | cnt + 1, i, n, s =>
    let n1 := Nat.land n (not64 (shl64 255 (8 * i)))
    match readByte s with
    | .err _ e s1 => .err 0 e s1
    | .panic m => .panic m
    | .oom => .oom
    | .ok b s1 => fixnumNegLoop cnt (i + 1) (Nat.lor n1 (shl64 b (8 * i))) s1

/-- readFixnum: the Marshal varint codec of rbmarshal.go. -/
def readFixnum (s : St) : Res Int :=
  match readByte s with
  | .err _ e s1 => .err 0 e s1
  | .panic m => .panic m
  | .oom => .oom
  | .ok b s1 =>
    let c : Int := int8 b
    if c = 0 then .ok 0 s1
    else if 0 < c then
      if 4 < c ∧ c < 128 then .ok (c - 5) s1
      else fixnumPosLoop c.toNat 0 0 s1
    else
      if -129 < c ∧ c < -4 then .ok (c + 5) s1
      else fixnumNegLoop (-c).toNat 0 (w64 - 1) s1

/-- Magnitude accumulation loop of readBignum: n |= data[i] << (8*i)
over the data bytes, in Go 64-bit arithmetic (it wraps for long data,
the overflow noted in spec section 9). -/
def bignumAcc : List Nat → Nat → Nat → Nat
  | [], _, n => n
  | b :: t, i, n => bignumAcc t (i + 1) (Nat.lor n (shl64 b (8 * i)))

/-- readBignum: sign byte, raw length byte, then int(2*rawLen - 10)
magnitude bytes.  The length arithmetic is on the Go byte type, so it
wraps mod 256; the sign switch panics on anything but + and -. -/
def readBignum (s : St) : Res Int :=
  match readByte s with
  | .err _ e s1 => .err 0 e s1
  | .panic m => .panic m
  | .oom => .oom
  | .ok sign s1 =>
    match readByte s1 with
    | .err _ e s2 => .err 0 e s2
    | .panic m => .panic m
    | .oom => .oom
    | .ok rawLen s2 =>
      let len := (2 * rawLen + 246) % 256
      match readFullN len s2 with
      | .err _ e s3 => .err 0 e s3
      | .panic m => .panic m
      | .oom => .oom
      | .ok data s3 =>
        let n := bignumAcc data 0 0
        if sign = bignumPos then .ok (toInt64 n) s3
        else if sign = bignumNeg then .ok (toInt64 ((w64 - n % w64) % w64)) s3
        else .panic "unexpected sign"

/-- Go string(bytes): the raw bytes as text, one character per byte. -/
def bytesToString (bs : List Nat) : String :=
  String.mk (bs.map Char.ofNat)

/-- fmt.Errorf message of stripEncoding for an unknown signature. -/
def encSigMsg (sig : List Nat) : String :=
  "unsupported string encoding signature " ++ toString sig

/-- stripEncoding: consume the 2 signature bytes and then 3 more bytes
(signature 0x06 0x3A) or 2 more (0x06 0x3B); any other signature is an
error before further reads. -/
def stripEncoding (s : St) : Res Unit :=
  match readFullN 2 s with
  | .err _ e s1 => .err () e s1
  | .panic m => .panic m
  | .oom => .oom
  | .ok sig s1 =>
    if sig = [6, 58] then
      match readFullN 3 s1 with
      | .err _ e s2 => .err () e s2
      | .panic m => .panic m
      | .oom => .oom
      | .ok _ s2 => .ok () s2
    else if sig = [6, 59] then
      match readFullN 2 s1 with
      | .err _ e s2 => .err () e s2
      | .panic m => .panic m
      | .oom => .oom
      | .ok _ s2 => .ok () s2
    else .err () (.format (encSigMsg sig)) s1

/-- readBinaryString: varint length, then the raw bytes.  Go
make([]byte, len) panics when the length is negative. -/
def readBinaryString (s : St) : Res String :=
  match readFixnum s with
  | .err _ e s1 => .err "" e s1
  | .panic m => .panic m
  | .oom => .oom
  | .ok len s1 =>
    if len < 0 then .panic "makeslice: len out of range"
    else
      match readFullN len.toNat s1 with
      | .err _ e s2 => .err "" e s2
      | .panic m => .panic m
      | .oom => .oom
      | .ok bs s2 => .ok (bytesToString bs) s2

/-- readEncodedString: varint length, raw bytes, then the encoding
bytes are stripped. -/
def readEncodedString (s : St) : Res String :=
  match readFixnum s with
  | .err _ e s1 => .err "" e s1
  | .panic m => .panic m
  | .oom => .oom
  | .ok len s1 =>
    if len < 0 then .panic "makeslice: len out of range"
    else
      match readFullN len.toNat s1 with
      | .err _ e s2 => .err "" e s2
      | .panic m => .panic m
      | .oom => .oom
      | .ok bs s2 =>
        match stripEncoding s2 with
        | .err _ e s3 => .err "" e s3
        | .panic m => .panic m
        | .oom => .oom
        | .ok _ s3 => .ok (bytesToString bs) s3

/-- readString: peek one byte; on the string tag, consume it and read
an encoded string, otherwise read a bare binary string. -/
def readString (s : St) : Res String :=
  match peekN 1 s with
  | .err _ e s1 => .err "" e s1
  | .panic m => .panic m
  | .oom => .oom
  | .ok bs s1 =>
    let b := bs.headD 0
    if b ≠ typeString then readBinaryString s1
    else
      match readByte s1 with
      | .err _ e s2 => .err "" e s2
      | .panic m => .panic m
      | .oom => .oom
      | .ok _ s2 => readEncodedString s2

/-- readFloat: a string value; "inf" and "-inf" are the infinities and
anything else goes through the host float parser (host floating point
is out of scope here, so the value is kept as its text and the
strconv.ParseFloat failure path is not modelled; no claim depends on
it).  The Go error paths return 0. -/
def readFloat (s : St) : Res String :=
  match readString s with
  | .err _ e s1 => .err "0" e s1
  | .panic m => .panic m
  | .oom => .oom
  | .ok str s1 =>
    if str = "inf" then .ok "inf" s1
    else if str = "-inf" then .ok "-inf" s1
    else .ok str s1

/-- readSymbol: a string, appended to the symbol table. -/
def readSymbol (s : St) : Res String :=
  match readString s with
  | .err _ e s1 => .err "" e s1
  | .panic m => .panic m
  | .oom => .oom
  | .ok str s1 => .ok str ⟨s1.input, s1.syms ++ [str], s1.out⟩

/-- readSymlink: a varint index into the symbol table.  The source
indexes arg.Symbols[i] with no bounds check, so an out-of-range index
is the Go run-time index-out-of-range panic. -/
def readSymlink (s : St) : Res String :=
  match readFixnum s with
  | .err _ e s1 => .err "" e s1
  | .panic m => .panic m
  | .oom => .oom
  | .ok i s1 =>
    if h : 0 ≤ i ∧ i.toNat < s1.syms.length then .ok (s1.syms.get ⟨i.toNat, h.2⟩) s1
    else .panic "index out of range"

/-- readRegexp: a string, an option byte rewritten to host inline
flags, then an unconditional 2-byte peek; when the peeked bytes mark an
encoding, stripEncoding runs with its error DISCARDED (the source drops
the return value at rbmarshal.go line 398).  Host pattern compilation
is out of scope, so the compiled regexp is represented by the rewritten
pattern and regexp.Compile is modelled as succeeding; the Go error
paths return regexp.MustCompile of the empty pattern. -/
def readRegexp (s : St) : Res String :=
  match readString s with
  | .err _ e s1 => .err "" e s1
  | .panic m => .panic m
  | .oom => .oom
  | .ok str s1 =>
    match readByte s1 with
    | .err _ e s2 => .err "" e s2
    | .panic m => .panic m
    | .oom => .oom
    | .ok options s2 =>
      let str2 :=
        if options = 1 ∨ options = 3 then "(?i)" ++ str
        else if options = 4 ∨ options = 6 then "(?s)" ++ str
        else if options = 5 ∨ options = 7 then "(?is)" ++ str
        else str
      match peekN 2 s2 with
      | .err _ e s3 => .err "" e s3
      | .panic m => .panic m
      | .oom => .oom
      | .ok bs s3 =>
        if bs.headD 0 = encStart ∧ (bs.getD 1 0 = colon ∨ bs.getD 1 0 = semicolon) then
          match stripEncoding s3 with
          | .ok _ s4 => .ok str2 s4
          | .err _ _ s4 => .ok str2 s4
          | .panic m => .panic m
          | .oom => .oom
        else .ok str2 s3

/-- Hash key normalization of readHash: string keys unchanged, int keys
through strconv.Itoa, every other decoded type to the empty key. -/
def normKey : RValue → String
  | .str s => s
  | .int i => toString i
  | _ => ""

/-- Go map assignment hash[k] = v: replace the value under an existing
key, otherwise add the binding. -/
def hashInsert (m : List (String × RValue)) (k : String) (v : RValue) :
    List (String × RValue) :=
  if m.any (fun p => p.1 = k) then m.map (fun p => if p.1 = k then (k, v) else p)
  else m ++ [(k, v)]

/-- Go map lookup hash[k]. -/
def hlookup : List (String × RValue) → String → Option RValue
  | [], _ => none
  | (k1, v) :: t, k => if k1 = k then some v else hlookup t k

/-- Element loop of readArray; on an error from read, Go returns the
partially filled slice (decoded values, then the value carried by the
failing read, then the nil slots make initialized). -/
def readArrayLoop (rd : St → Res RValue) : Nat → List RValue → St → Res RValue
  | 0, acc, s => .ok (.arr acc) s
  | cnt + 1, acc, s =>
    match rd s with
    | .ok v s1 => readArrayLoop rd cnt (acc ++ [v]) s1
    | .err v e s1 => .err (.arr (acc ++ v :: List.replicate cnt .nil)) e s1
    | .panic m => .panic m
    | .oom => .oom

/-- readArray: varint count, then that many dispatch-decoded elements.
Go make([]interface{}, size) panics on a negative count. -/
def readArrayWith (rd : St → Res RValue) (s : St) : Res RValue :=
  match readFixnum s with
  | .err _ e s1 => .err (.arr []) e s1
  | .panic m => .panic m
  | .oom => .oom
  | .ok size s1 =>
    if size < 0 then .panic "makeslice: len out of range"
    else readArrayLoop rd size.toNat [] s1

/-- Pair loop of readHash; on an error from read, Go returns the map
built so far (the failing pair is not inserted). -/
def readHashLoop (rd : St → Res RValue) : Nat → List (String × RValue) → St → Res RValue
  | 0, acc, s => .ok (.hash acc) s
  | cnt + 1, acc, s =>
    match rd s with
    | .err _ e s1 => .err (.hash acc) e s1
    | .panic m => .panic m
    | .oom => .oom
    | .ok k s1 =>
      match rd s1 with
      | .err _ e s2 => .err (.hash acc) e s2
      | .panic m => .panic m
      | .oom => .oom
      | .ok v s2 => readHashLoop rd cnt (hashInsert acc (normKey k) v) s2

/-- readHash: varint pair count, then that many key/value pairs with
normalized keys.  Go make(map, size) panics on a negative size hint. -/
def readHashWith (rd : St → Res RValue) (s : St) : Res RValue :=
  match readFixnum s with
  | .err _ e s1 => .err (.hash []) e s1
  | .panic m => .panic m
  | .oom => .oom
  | .ok size s1 =>
    if size < 0 then .panic "makemap: size out of range"
    else readHashLoop rd size.toNat [] s1

/-- readIvar: peek one byte; a string tag goes through readString, any
other wrapped value falls through to ordinary dispatch.  The Go error
path of the peek returns an empty string. -/
def readIvarWith (rd : St → Res RValue) (s : St) : Res RValue :=
  match peekN 1 s with
  | .err _ e s1 => .err (.str "") e s1
  | .panic m => .panic m
  | .oom => .oom
  | .ok bs s1 =>
    if bs.headD 0 = typeString then mapRV RValue.str (readString s1)
    else rd s1

/-- fmt.Printf line of the unsupported-tag default branch of read. -/
def warnMsg (b : Nat) : String :=
  "unsupported type byte: " ++ toString b

/-- Body of read for one tag byte (the dispatch switch of the source),
parameterized by the recursive reference rd used for containers and
ivar wrappers. -/
def readStep (rd : St → Res RValue) (s : St) : Res RValue :=
  match readByte s with
  | .err _ e s1 => .err .nil e s1
  | .panic m => .panic m
  | .oom => .oom
  | .ok b s1 =>
    if b = typeNil then .ok .nil s1
    else if b = typeTrue then .ok (.bool true) s1
    else if b = typeFalse then .ok (.bool false) s1
    else if b = typeFixnum then mapRV RValue.int (readFixnum s1)
    else if b = typeBignum then mapRV RValue.int (readBignum s1)
    else if b = typeString then mapRV RValue.str (readString s1)
    else if b = typeArray then readArrayWith rd s1
    else if b = typeFloat then mapRV RValue.float (readFloat s1)
    else if b = typeIvar then readIvarWith rd s1
    else if b = typeRegexp then mapRV RValue.regexp (readRegexp s1)
    else if b = typeSymbol then mapRV RValue.str (readSymbol s1)
    else if b = typeSymlink then mapRV RValue.str (readSymlink s1)
    else if b = typeHash then readHashWith rd s1
    else .ok .nil ⟨s1.input, s1.syms, s1.out ++ [warnMsg b]⟩

/-- read: the type dispatcher, with fuel closing the recursive knot. -/
def read : Nat → St → Res RValue
  | 0, _ => .oom
  | f + 1, s => readStep (read f) s

/-- readArray at a given fuel. -/
def readArray (f : Nat) (s : St) : Res RValue := readArrayWith (read f) s

/-- readHash at a given fuel. -/
def readHash (f : Nat) (s : St) : Res RValue := readHashWith (read f) s

/-- readIvar at a given fuel. -/
def readIvar (f : Nat) (s : St) : Res RValue := readIvarWith (read f) s

/-- The list of tag bytes the dispatcher recognizes. -/
def supportedTags : List Nat :=
  [typeNil, typeTrue, typeFalse, typeFixnum, typeBignum, typeString, typeArray,
   typeFloat, typeIvar, typeRegexp, typeSymbol, typeSymlink, typeHash]

/-- fmt.Errorf message of validateVersion for a wrong version header. -/
def versionMsg (ver : List Nat) : String :=
  "unsupported marshal version " ++ toString ver ++ ", wanted [4 8]"

/-- validateVersion: read exactly 2 bytes and compare them with the
fixed marshal version 0x04 0x08. -/
def validateVersion (s : St) : Res Unit :=
  match readFullN 2 s with
  | .err _ e s1 => .err () e s1
  | .panic m => .panic m
  | .oom => .oom
  | .ok ver s1 =>
    if ver = [4, 8] then .ok () s1
    else .err () (.format (versionMsg ver)) s1

/-- Load: validate the version header, then decode one value with a
fresh symbol table.  The fuel handed to read exceeds the input length,
which is adequate because every read call consumes its tag byte. -/
def Load (input : List Nat) : Res RValue :=
  match validateVersion ⟨input, [], []⟩ with
  | .err _ e s1 => .err .nil e s1
  | .panic m => .panic m
  | .oom => .oom
  | .ok _ s1 => read (s1.input.length + 1) s1

/-! Helper lemmas about the 64-bit arithmetic of the embedding. -/

/-- The unsigned little-endian value of a byte list. -/
def leNat : List Nat → Nat
  | [] => 0
  | b :: t => b + 256 * leNat t

theorem leNat_lt (bs : List Nat) (hb : ∀ b ∈ bs, b < 256) :
    leNat bs < 2 ^ (8 * bs.length) := by
  induction bs with
  | nil => simp [leNat]
  | cons b t ih =>
    have hbb : b < 256 := hb b (by simp)
    have ht := ih (fun x hx => hb x (by simp [hx]))
    simp only [leNat, List.length_cons]
    have : 8 * (t.length + 1) = 8 * t.length + 8 := by ring
    rw [this, pow_add]
    have h8 : (2 : Nat) ^ 8 = 256 := by norm_num
    nlinarith [ht]

theorem toInt64_of_lt {x : Nat} (h : x < 2 ^ 63) : toInt64 x = (x : Int) := by
  rw [toInt64, if_pos h]

theorem toInt64_of_ge {x : Nat} (h : 2 ^ 63 ≤ x) : toInt64 x = (x : Int) - 2 ^ 64 := by
  have hx : ¬ x < 2 ^ 63 := by omega
  rw [toInt64, if_neg hx]
  norm_num [w64]

theorem shl64_byte_eq {b i : Nat} (hb : b < 256) (hi : 8 * (i + 1) ≤ 64) :
    shl64 b (8 * i) = b * 2 ^ (8 * i) := by
  have h1 : b * 2 ^ (8 * i) < w64 := by
    have : b * 2 ^ (8 * i) < 256 * 2 ^ (8 * i) := by
      have hp := Nat.pos_pow_of_pos (8 * i) (show 0 < 2 by norm_num)
      exact (Nat.mul_lt_mul_right hp).mpr hb
    have h2 : (256 : Nat) * 2 ^ (8 * i) = 2 ^ (8 * i + 8) := by
      rw [pow_add]; ring
    have h3 : (2 : Nat) ^ (8 * i + 8) ≤ 2 ^ 64 := by
      apply Nat.pow_le_pow_right (by norm_num); omega
    simp only [w64]; omega
  simp only [shl64, Nat.shiftLeft_eq]
  exact Nat.mod_eq_of_lt h1

/-- Disjoint or: a value below 2^k ored with a multiple of 2^k is their
sum. -/
theorem lor_low_high {S H k : Nat} (hS : S < 2 ^ k) (hH : ∃ A, H = 2 ^ k * A) :
    Nat.lor S H = S + H := by
  obtain ⟨A, rfl⟩ := hH
  show S ||| 2 ^ k * A = S + 2 ^ k * A
  rw [Nat.lor_comm]
  have h2 := Nat.mul_add_lt_is_or hS A
  omega

theorem highOnes {k : Nat} (hk : k ≤ 64) : w64 - 2 ^ k = 2 ^ k * (2 ^ (64 - k) - 1) := by
  have h : 2 ^ k * 2 ^ (64 - k) = w64 := by
    rw [← pow_add, w64]; congr 1; omega
  rw [Nat.mul_sub_one, h]

theorem low_sum_lt {S b i : Nat} (hS : S < 2 ^ (8 * i)) (hb : b < 256) :
    S + b * 2 ^ (8 * i) < 2 ^ (8 * (i + 1)) := by
  have e : (2 : Nat) ^ (8 * (i + 1)) = 2 ^ (8 * i) * 256 := by
    rw [show 8 * (i + 1) = 8 * i + 8 from by ring, pow_add]; norm_num
  rw [e]; nlinarith

theorem fixnumPosLoop_spec (bs : List Nat) : ∀ (i n : Nat) (rest syms out : _),
    (∀ b ∈ bs, b < 256) → n < 2 ^ (8 * i) → 8 * (i + bs.length) ≤ 64 →
    fixnumPosLoop bs.length i n ⟨bs ++ rest, syms, out⟩ =
      .ok (toInt64 (n + leNat bs * 2 ^ (8 * i))) ⟨rest, syms, out⟩ := by
  induction bs with
  | nil => intro i n rest syms out _ _ _; simp [fixnumPosLoop, leNat]
  | cons b t ih =>
    intro i n rest syms out hb hn hlen
    have hbb : b < 256 := hb b (by simp)
    have ht : ∀ x ∈ t, x < 256 := fun x hx => hb x (by simp [hx])
    have hlen1 : 8 * (i + 1) ≤ 64 := by simp [List.length_cons] at hlen; omega
    simp only [List.length_cons, List.cons_append, fixnumPosLoop, readByte]
    rw [shl64_byte_eq hbb hlen1]
    rw [show Nat.lor n (b * 2 ^ (8 * i)) = n + b * 2 ^ (8 * i) from
      lor_low_high hn ⟨b, by ring⟩]
    have hval : n + leNat (b :: t) * 2 ^ (8 * i) =
        (n + b * 2 ^ (8 * i)) + leNat t * 2 ^ (8 * (i + 1)) := by
      rw [leNat, show 8 * (i + 1) = 8 * i + 8 from by ring, pow_add]; ring
    rw [hval]
    exact ih (i + 1) (n + b * 2 ^ (8 * i)) rest syms out ht
      (low_sum_lt hn hbb) (by simp [List.length_cons] at hlen; omega)

theorem maskStep {i S : Nat} (hS : S < 2 ^ (8 * i)) (hi : 8 * (i + 1) ≤ 64) :
    Nat.land (S + (w64 - 2 ^ (8 * i))) (not64 (shl64 255 (8 * i))) =
      S + (w64 - 2 ^ (8 * (i + 1))) := by
  have h8i : 8 * i ≤ 64 := by omega
  rw [shl64_byte_eq (by norm_num) hi]
  rw [highOnes h8i, highOnes (show 8 * (i + 1) ≤ 64 from hi)]
  rw [Nat.add_comm S, Nat.add_comm S]
  rw [not64, show w64 - 1 = 2 ^ 64 - 1 from by rw [w64], Nat.mul_comm 255]
  have hS1 : S < 2 ^ (8 * (i + 1)) :=
    lt_of_lt_of_le hS (Nat.pow_le_pow_right (by norm_num) (by omega))
  show (2 ^ (8 * i) * (2 ^ (64 - 8 * i) - 1) + S) &&&
      ((2 ^ (8 * i) * 255) ^^^ (2 ^ 64 - 1)) =
    2 ^ (8 * (i + 1)) * (2 ^ (64 - 8 * (i + 1)) - 1) + S
  apply Nat.eq_of_testBit_eq
  intro j
  have h255 : ∀ k, Nat.testBit 255 k = decide (k < 8) := by
    intro k
    rw [show (255 : Nat) = 2 ^ 8 - 1 from rfl, Nat.testBit_two_pow_sub_one]
  have hones : ∀ k, Nat.testBit (2 ^ 64 - 1) k = decide (k < 64) := fun k =>
    Nat.testBit_two_pow_sub_one 64 k
  have honesN : ∀ k, Nat.testBit (18446744073709551615 : Nat) k = decide (k < 64) := by
    intro k
    rw [show (18446744073709551615 : Nat) = 2 ^ 64 - 1 from by norm_num, hones]
  rw [Nat.testBit_and, Nat.testBit_mul_pow_two_add _ hS,
      Nat.testBit_mul_pow_two_add _ hS1, Nat.testBit_xor, Nat.testBit_mul_pow_two]
  rcases Nat.lt_or_ge j (8 * i) with h1 | h1
  · have hj64 : j < 64 := by omega
    simp [h1, show j < 8 * (i + 1) from by omega, show ¬ 8 * i ≤ j from by omega, hj64,
      h255, hones, honesN]
  rcases Nat.lt_or_ge j (8 * (i + 1)) with h2 | h2
  · have hSj : Nat.testBit S j = false :=
      Nat.testBit_lt_two_pow
        (lt_of_lt_of_le hS (Nat.pow_le_pow_right (by norm_num) h1))
    simp [show ¬ j < 8 * i from by omega, h1, h2, hSj,
      show j - 8 * i < 8 from by omega, show j - 8 * i < 64 - 8 * i from by omega,
      show j < 64 from by omega, h255, hones, honesN]
  rcases Nat.lt_or_ge j 64 with h3 | h3
  · simp [show ¬ j < 8 * i from by omega, show ¬ j < 8 * (i + 1) from by omega, h1,
      show ¬ j - 8 * i < 8 from by omega, show j - 8 * i < 64 - 8 * i from by omega,
      show j - 8 * (i + 1) < 64 - 8 * (i + 1) from by omega, h3, h255, hones, honesN]
  · simp [show ¬ j < 8 * i from by omega, show ¬ j < 8 * (i + 1) from by omega, h1,
      show ¬ j - 8 * i < 8 from by omega,
      show ¬ j - 8 * i < 64 - 8 * i from by omega,
      show ¬ j - 8 * (i + 1) < 64 - 8 * (i + 1) from by omega,
      show ¬ j < 64 from by omega, h255, hones, honesN]

theorem orStep {i S b : Nat} (hS : S < 2 ^ (8 * i)) (hb : b < 256) (hi : 8 * (i + 1) ≤ 64) :
    Nat.lor (S + (w64 - 2 ^ (8 * (i + 1)))) (shl64 b (8 * i)) =
      (S + b * 2 ^ (8 * i)) + (w64 - 2 ^ (8 * (i + 1))) := by
  rw [shl64_byte_eq hb hi]
  have hS1 : S < 2 ^ (8 * (i + 1)) :=
    lt_of_lt_of_le hS (Nat.pow_le_pow_right (by norm_num) (by omega))
  have hA : ∃ A, w64 - 2 ^ (8 * (i + 1)) = 2 ^ (8 * (i + 1)) * A :=
    ⟨2 ^ (64 - 8 * (i + 1)) - 1, highOnes hi⟩
  rw [show S + (w64 - 2 ^ (8 * (i + 1))) =
      Nat.lor S (w64 - 2 ^ (8 * (i + 1))) from (lor_low_high hS1 hA).symm]
  show (S ||| (w64 - 2 ^ (8 * (i + 1)))) ||| b * 2 ^ (8 * i) = _
  rw [Nat.lor_assoc, Nat.lor_comm (w64 - 2 ^ (8 * (i + 1))), ← Nat.lor_assoc]
  rw [show S ||| b * 2 ^ (8 * i) = S + b * 2 ^ (8 * i) from
    lor_low_high hS ⟨b, by ring⟩]
  exact lor_low_high (low_sum_lt hS hb) hA

theorem fixnumNegLoop_spec (bs : List Nat) : ∀ (i S : Nat) (rest syms out : _),
    (∀ b ∈ bs, b < 256) → S < 2 ^ (8 * i) → 8 * (i + bs.length) ≤ 64 →
    fixnumNegLoop bs.length i (S + (w64 - 2 ^ (8 * i))) ⟨bs ++ rest, syms, out⟩ =
      .ok (toInt64 (S + leNat bs * 2 ^ (8 * i) + (w64 - 2 ^ (8 * (i + bs.length)))))
        ⟨rest, syms, out⟩ := by
  induction bs with
  | nil => intro i S rest syms out _ _ _; simp [fixnumNegLoop, leNat]
  | cons b t ih =>
    intro i S rest syms out hb hS hlen
    have hbb : b < 256 := hb b (by simp)
    have ht : ∀ x ∈ t, x < 256 := fun x hx => hb x (by simp [hx])
    have hlen1 : 8 * (i + 1) ≤ 64 := by simp [List.length_cons] at hlen; omega
    simp only [List.length_cons, List.cons_append, fixnumNegLoop, readByte]
    rw [maskStep hS hlen1, orStep hS hbb hlen1]
    have hval : S + leNat (b :: t) * 2 ^ (8 * i) + (w64 - 2 ^ (8 * (i + (t.length + 1)))) =
        (S + b * 2 ^ (8 * i)) + leNat t * 2 ^ (8 * (i + 1)) +
          (w64 - 2 ^ (8 * ((i + 1) + t.length))) := by
      rw [leNat, show 8 * (i + 1) = 8 * i + 8 from by ring, pow_add,
        show i + (t.length + 1) = (i + 1) + t.length from by ring]
      ring
    rw [hval]
    exact ih (i + 1) (S + b * 2 ^ (8 * i)) rest syms out ht
      (low_sum_lt hS hbb) (by simp [List.length_cons] at hlen; omega)

/-- C4: the varint (Fixnum) decoder, with c the control byte read as a
signed 8-bit value, returns 0 when c = 0 (no further bytes); c - 5 when
4 < c < 128; c + 5 when -129 < c < -4; for the remaining positive c the
unsigned little-endian integer of the next c bytes; and for the
remaining negative c the sign-extended little-endian integer of the
next -c bytes (the value starts at -1, each byte position is masked out
and the byte ored in), which is their little-endian value minus
2^(8*(-c)). -/
theorem c4_readFixnum_branches :
    (∀ rest syms out, readFixnum ⟨0 :: rest, syms, out⟩ = .ok 0 ⟨rest, syms, out⟩) ∧
    (∀ b rest syms out, 4 < int8 b → int8 b < 128 →
      readFixnum ⟨b :: rest, syms, out⟩ = .ok (int8 b - 5) ⟨rest, syms, out⟩) ∧
    (∀ b rest syms out, -129 < int8 b → int8 b < -4 →
      readFixnum ⟨b :: rest, syms, out⟩ = .ok (int8 b + 5) ⟨rest, syms, out⟩) ∧
    (∀ b bs rest syms out, 0 < int8 b → int8 b ≤ 4 → bs.length = (int8 b).toNat →
      (∀ x ∈ bs, x < 256) →
      readFixnum ⟨b :: (bs ++ rest), syms, out⟩ = .ok (leNat bs) ⟨rest, syms, out⟩) ∧
    (∀ b bs rest syms out, -4 ≤ int8 b → int8 b < 0 → bs.length = (-(int8 b)).toNat →
      (∀ x ∈ bs, x < 256) →
      readFixnum ⟨b :: (bs ++ rest), syms, out⟩ =
        .ok ((leNat bs : Int) - 2 ^ (8 * bs.length)) ⟨rest, syms, out⟩) := by
  refine ⟨?_, ?_, ?_, ?_, ?_⟩
  · intro rest syms out
    simp [readFixnum, readByte, int8]
  · intro b rest syms out h4 h128
    simp only [readFixnum, readByte]
    rw [if_neg (by omega : ¬ int8 b = 0), if_pos (by omega : (0 : Int) < int8 b),
      if_pos ⟨h4, h128⟩]
  · intro b rest syms out h129 h4
    simp only [readFixnum, readByte]
    rw [if_neg (by omega : ¬ int8 b = 0), if_neg (by omega : ¬ (0 : Int) < int8 b),
      if_pos ⟨h129, h4⟩]
  · intro b bs rest syms out h0 h4 hlen hb
    have hlen4 : bs.length ≤ 4 := by omega
    simp only [readFixnum, readByte]
    rw [if_neg (by omega : ¬ int8 b = 0), if_pos h0,
      if_neg (by omega : ¬ (4 < int8 b ∧ int8 b < 128)), ← hlen]
    rw [fixnumPosLoop_spec bs 0 0 rest syms out hb (by norm_num) (by omega)]
    have hlt : leNat bs < 2 ^ 63 :=
      lt_of_lt_of_le (leNat_lt bs hb) (Nat.pow_le_pow_right (by norm_num) (by omega))
    rw [show 0 + leNat bs * 2 ^ (8 * 0) = leNat bs from by norm_num, toInt64_of_lt hlt]
  · intro b bs rest syms out h4 h0 hlen hb
    have hlen4 : bs.length ≤ 4 := by omega
    simp only [readFixnum, readByte]
    rw [if_neg (by omega : ¬ int8 b = 0), if_neg (by omega : ¬ (0 : Int) < int8 b),
      if_neg (by omega : ¬ (-129 < int8 b ∧ int8 b < -4)), ← hlen]
    rw [show w64 - 1 = 0 + (w64 - 2 ^ (8 * 0)) from by norm_num]
    rw [fixnumNegLoop_spec bs 0 0 rest syms out hb (by norm_num) (by omega)]
    have hple : (2 : Nat) ^ (8 * bs.length) ≤ 2 ^ 32 :=
      Nat.pow_le_pow_right (by norm_num) (by omega)
    have hlt : leNat bs < 2 ^ (8 * bs.length) := leNat_lt bs hb
    have h32 : (2 : Nat) ^ 32 = 4294967296 := by norm_num
    have h63 : (2 : Nat) ^ 63 = 9223372036854775808 := by norm_num
    have h64 : w64 = 18446744073709551616 := by norm_num [w64]
    have hge : 2 ^ 63 ≤ 0 + leNat bs * 2 ^ (8 * 0) + (w64 - 2 ^ (8 * (0 + bs.length))) := by
      simp only [pow_zero, mul_one, Nat.zero_add, zero_add]
      omega
    rw [toInt64_of_ge hge]
    congr 1
    have hle64 : (2 : Nat) ^ (8 * bs.length) ≤ w64 := by omega
    simp only [pow_zero, mul_one, Nat.zero_add, zero_add]
    rw [Nat.cast_add, Nat.cast_sub hle64]
    push_cast [h64]
    ring

/-- C4 witness: the five branches at concrete inputs: control byte 0
gives 0; byte 6 gives 1; byte 250 (signed -6) gives -1; byte 1 with one
magnitude byte 7 gives 7; byte 255 (signed -1) with one magnitude byte
0 gives -256. -/
theorem c4_witness :
    readFixnum ⟨[0], [], []⟩ = .ok 0 ⟨[], [], []⟩ ∧
    readFixnum ⟨[6], [], []⟩ = .ok 1 ⟨[], [], []⟩ ∧
    readFixnum ⟨[250], [], []⟩ = .ok (-1) ⟨[], [], []⟩ ∧
    readFixnum ⟨[1, 7], [], []⟩ = .ok 7 ⟨[], [], []⟩ ∧
    readFixnum ⟨[255, 0], [], []⟩ = .ok (-256) ⟨[], [], []⟩ := by
  refine ⟨c4_readFixnum_branches.1 [] [] [], ?_, ?_, ?_, ?_⟩
  · have h := c4_readFixnum_branches.2.1 6 [] [] [] (by decide) (by decide)
    rw [show (1 : Int) = int8 6 - 5 from by decide]
    exact h
  · have h := c4_readFixnum_branches.2.2.1 250 [] [] [] (by decide) (by decide)
    rw [show (-1 : Int) = int8 250 + 5 from by decide]
    exact h
  · have h := c4_readFixnum_branches.2.2.2.1 1 [7] [] [] [] (by decide) (by decide)
      (by decide) (by decide)
    rw [show (7 : Int) = ((leNat [7] : Nat) : Int) from by decide]
    exact h
  · have h := c4_readFixnum_branches.2.2.2.2 255 [0] [] [] [] (by decide) (by decide)
      (by decide) (by decide)
    rw [show (-256 : Int) = ((leNat [0] : Nat) : Int) - 2 ^ (8 * List.length [0]) from
      by decide]
    exact h

/-- C1 counterexample: on input sign byte 120 (the letter x, neither +
nor -) and word count 5 (zero magnitude bytes), readBignum panics with
"unexpected sign" instead of returning a FormatError. -/
theorem c1_counterexample : readBignum ⟨[120, 5], [], []⟩ = .panic "unexpected sign" := by
  decide

/-- C1 amended: on every input whose sign marker is neither + (43) nor
- (45) and whose magnitude bytes are all present, readBignum panics
with "unexpected sign" after reading the magnitude; it does not
silently default and does not return a FormatError to the caller. -/
theorem c1_bignum_bad_sign_panics (sign w : Nat) (data rest syms out : _)
    (h43 : sign ≠ 43) (h45 : sign ≠ 45)
    (hlen : data.length = (2 * w + 246) % 256) :
    readBignum ⟨sign :: w :: (data ++ rest), syms, out⟩ = .panic "unexpected sign" := by
  have hle : (2 * w + 246) % 256 ≤ (data ++ rest).length := by
    rw [List.length_append]; omega
  simp only [readBignum, readByte, readFullN, if_pos hle]
  rw [if_neg (show ¬ sign = bignumPos from by simp only [bignumPos]; exact h43),
    if_neg (show ¬ sign = bignumNeg from by simp only [bignumNeg]; exact h45)]

/-- C1 witness: sign byte 100 with word count 6 (two magnitude bytes)
panics. -/
theorem c1_witness : readBignum ⟨[100, 6, 1, 2], [], []⟩ = .panic "unexpected sign" :=
  c1_bignum_bad_sign_panics 100 6 [1, 2] [] [] [] (by decide) (by decide) (by decide)

/-- C2 counterexample: a symbol backreference to index 0 with an empty
symbol table makes readSymlink panic (Go index out of range) instead of
failing with a FormatError. -/
theorem c2_counterexample : readSymlink ⟨[0], [], []⟩ = .panic "index out of range" := by
  decide

/-- C2 amended: when the varint index decodes to i, readSymlink returns
the symbol-table entry at i when 0 <= i < length of the table, and
panics with the Go index-out-of-range run-time error otherwise (it does
not return a FormatError and does not return a zero value). -/
theorem c2_symlink_index (s : St) (i : Int) (s1 : St)
    (hfix : readFixnum s = .ok i s1) :
    (∀ h : 0 ≤ i ∧ i.toNat < s1.syms.length,
      readSymlink s = .ok (s1.syms.get ⟨i.toNat, h.2⟩) s1) ∧
    (¬ (0 ≤ i ∧ i.toNat < s1.syms.length) →
      readSymlink s = .panic "index out of range") := by
  constructor
  · intro h
    simp only [readSymlink, hfix]
    rw [dif_pos h]
  · intro h
    simp only [readSymlink, hfix]
    rw [dif_neg h]

/-- C2 witness: index 0 with table ["foo"] yields "foo"; index 0 with
an empty table panics. -/
theorem c2_witness :
    readSymlink ⟨[0], ["foo"], []⟩ = .ok "foo" ⟨[], ["foo"], []⟩ ∧
    readSymlink ⟨[0], [], []⟩ = .panic "index out of range" := by
  constructor
  · exact (c2_symlink_index ⟨[0], ["foo"], []⟩ 0 ⟨[], ["foo"], []⟩ (by decide)).1
      ⟨by decide, by decide⟩
  · exact (c2_symlink_index ⟨[0], [], []⟩ 0 ⟨[], [], []⟩ (by decide)).2 (by decide)

set_option maxRecDepth 8000 in
/-- C6 counterexample: with word count w = 0 the decoder reads 246
magnitude bytes, the Go byte value of 2*0 - 10, not the exact integer
2*0 - 10 = -10: on 247 available bytes it consumes 2 header bytes plus
246 magnitude bytes and leaves exactly the final byte. -/
theorem c6_counterexample :
    readBignum ⟨43 :: 0 :: (List.replicate 246 0 ++ [99]), [], []⟩ =
      .ok 0 ⟨[99], [], []⟩ ∧ ¬ ((246 : Int) = 2 * 0 - 10) := by
  constructor
  · decide
  · decide

/-- C6 amended: for every word-count byte w, the number of magnitude
bytes read by readBignum is (2*w - 10) mod 256, the wrapped Go byte
value (shown here for the + sign: with that many data bytes followed by
rest, exactly rest remains). -/
theorem c6_bignum_length (w : Nat) (data rest syms out : _)
    (hlen : data.length = (2 * w + 246) % 256) :
    ∃ v, readBignum ⟨43 :: w :: (data ++ rest), syms, out⟩ = .ok v ⟨rest, syms, out⟩ := by
  have hle : (2 * w + 246) % 256 ≤ (data ++ rest).length := by
    rw [List.length_append]; omega
  refine ⟨toInt64 (bignumAcc data 0 0), ?_⟩
  simp only [readBignum, readByte, readFullN, if_pos hle,
    List.take_left' hlen, List.drop_left' hlen]
  rw [if_pos (show (43 : Nat) = bignumPos from rfl)]

/-- C6 witness: word count 6 reads exactly (2*6 - 10) mod 256 = 2
magnitude bytes. -/
theorem c6_witness :
    ∃ v, readBignum ⟨43 :: 6 :: ([9, 9] ++ [5]), [], []⟩ = .ok v ⟨[5], [], []⟩ :=
  c6_bignum_length 6 [9, 9] [5] [] [] (by decide)

/-- C9: whenever the varint length before a binary string, or the
varint count before array elements, decodes to a negative value, the
decoder panics at the Go make call with a negative size instead of
returning an error. -/
theorem c9_negative_length_panics :
    (∀ s len s1, readFixnum s = .ok len s1 → len < 0 →
      readBinaryString s = .panic "makeslice: len out of range") ∧
    (∀ f s len s1, readFixnum s = .ok len s1 → len < 0 →
      readArray f s = .panic "makeslice: len out of range") := by
  constructor
  · intro s len s1 hfix hneg
    simp only [readBinaryString, hfix]
    rw [if_pos hneg]
  · intro f s len s1 hfix hneg
    simp only [readArray, readArrayWith, hfix]
    rw [if_pos hneg]

/-- C9 witness: length byte 250 decodes to the varint -1 and both
readers panic. -/
theorem c9_witness :
    readBinaryString ⟨[250], [], []⟩ = .panic "makeslice: len out of range" ∧
    readArray 0 ⟨[250], [], []⟩ = .panic "makeslice: len out of range" :=
  ⟨c9_negative_length_panics.1 ⟨[250], [], []⟩ (-1) ⟨[], [], []⟩ (by decide) (by decide),
   c9_negative_length_panics.2 0 ⟨[250], [], []⟩ (-1) ⟨[], [], []⟩ (by decide) (by decide)⟩

/-- C5: validateVersion reads exactly 2 bytes; on a header different
from 0x04 0x08 it fails with a FormatError naming expected and actual
version and consumes nothing further; on a matching header it succeeds
having consumed exactly the 2 bytes; on fewer than 2 available bytes it
fails with an end-of-input error (the spec's UnexpectedEndOfInput). -/
theorem c5_validateVersion :
    (∀ a b rest syms out, ¬ (a = 4 ∧ b = 8) →
      validateVersion ⟨a :: b :: rest, syms, out⟩ =
        .err () (.format (versionMsg [a, b])) ⟨rest, syms, out⟩) ∧
    (∀ rest syms out,
      validateVersion ⟨4 :: 8 :: rest, syms, out⟩ = .ok () ⟨rest, syms, out⟩) ∧
    (∀ input syms out, List.length input < 2 →
      ∃ e s1, validateVersion ⟨input, syms, out⟩ = .err () e s1 ∧
        e.isEndOfInput = true) := by
  refine ⟨?_, ?_, ?_⟩
  · intro a b rest syms out hne
    have h2 : 2 ≤ (a :: b :: rest).length := by simp
    simp only [validateVersion, readFullN, if_pos h2,
      show List.take 2 (a :: b :: rest) = [a, b] from rfl,
      show List.drop 2 (a :: b :: rest) = rest from rfl]
    rw [if_neg (show ¬ ([a, b] = [4, 8]) from fun h => hne (by simpa using h))]
  · intro rest syms out
    have h2 : 2 ≤ (4 :: 8 :: rest).length := by simp
    simp only [validateVersion, readFullN, if_pos h2,
      show List.take 2 (4 :: 8 :: rest) = [4, 8] from rfl,
      show List.drop 2 (4 :: 8 :: rest) = rest from rfl, if_true]
  · intro input syms out hlen
    match input with
    | [] => exact ⟨.eof, ⟨[], syms, out⟩, rfl, rfl⟩
    | [x] => exact ⟨.unexpectedEOF, ⟨[], syms, out⟩, rfl, rfl⟩
    | x :: y :: t => simp at hlen; omega

/-- C5 witness: header 0x04 0x07 fails with the FormatError naming both
versions and leaves the rest unread; 0x04 0x08 succeeds; a 1-byte input
fails with an end-of-input error. -/
theorem c5_witness :
    validateVersion ⟨[4, 7, 9], [], []⟩ =
      .err () (.format (versionMsg [4, 7])) ⟨[9], [], []⟩ ∧
    validateVersion ⟨[4, 8, 48], [], []⟩ = .ok () ⟨[48], [], []⟩ ∧
    (∃ e s1, validateVersion ⟨[9], [], []⟩ = .err () e s1 ∧ e.isEndOfInput = true) :=
  ⟨c5_validateVersion.1 4 7 [9] [] [] (by decide),
   c5_validateVersion.2.1 [48] [] [],
   c5_validateVersion.2.2 [9] [] [] (by decide)⟩

/-- C8: for every tag byte outside the supported set, the dispatcher
prints the unsupported-type warning and returns the nil value with no
error, consuming only the tag byte. -/
theorem c8_unknown_tag (f b : Nat) (rest : List Nat) (syms out : List String)
    (h : b ∉ supportedTags) :
    read (f + 1) ⟨b :: rest, syms, out⟩ = .ok .nil ⟨rest, syms, out ++ [warnMsg b]⟩ := by
  simp only [supportedTags, List.mem_cons, List.not_mem_nil, or_false] at h
  push_neg at h
  obtain ⟨h1, h2, h3, h4, h5, h6, h7, h8, h9, h10, h11, h12, h13⟩ := h
  show readStep (read f) ⟨b :: rest, syms, out⟩ = _
  simp only [readStep, readByte]
  rw [if_neg h1, if_neg h2, if_neg h3, if_neg h4, if_neg h5, if_neg h6, if_neg h7,
    if_neg h8, if_neg h9, if_neg h10, if_neg h11, if_neg h12, if_neg h13]

/-- C8 witness: tag byte 65 (the letter A) is logged and decoded as nil
with no error. -/
theorem c8_witness :
    read 1 ⟨[65], [], []⟩ = .ok .nil ⟨[], [], ["unsupported type byte: 65"]⟩ :=
  c8_unknown_tag 0 65 [] [] [] (by decide)

/-- C10: after a regexp's option byte the decoder unconditionally peeks
2 bytes, so whenever fewer than 2 bytes remain after the option byte,
readRegexp fails with an end-of-input error even though the regexp
value itself is complete; in particular the complete 5-byte stream
header + empty regexp + option byte makes Load return an error. -/
theorem c10_regexp_trailing_peek :
    (∀ s pat s1 b rest, readString s = .ok pat s1 → s1.input = b :: rest →
      rest.length < 2 → readRegexp s = .err "" .eof ⟨rest, s1.syms, s1.out⟩) ∧
    Load [4, 8, 47, 0, 0] = .err (.regexp "") .eof ⟨[], [], []⟩ := by
  constructor
  · intro s pat s1 b rest hstr hinp hlen
    obtain ⟨inp, syms, out⟩ := s1
    simp only at hinp
    subst hinp
    have hp : ¬ 2 ≤ rest.length := by omega
    simp only [readRegexp, hstr, readByte, peekN, if_neg hp]
  · rfl

/-- C10 witness: the empty regexp followed by its option byte at the
very end of input fails with an end-of-input error from the peek. -/
theorem c10_witness : readRegexp ⟨[0, 0], [], []⟩ = .err "" .eof ⟨[], [], []⟩ :=
  c10_regexp_trailing_peek.1 ⟨[0, 0], [], []⟩ "" ⟨[0], [], []⟩ 0 [] (by decide) rfl
    (by decide)

/-- C3: a stream truncated inside the encoding bytes that follow a
regexp decodes SUCCESSFULLY: the error of stripEncoding is dropped at
rbmarshal.go line 398, so Load returns the compiled empty regexp and no
error, where the claim demands an UnexpectedEndOfInput error and no
value.  The 7-byte input is the valid 10-byte stream header + regexp +
encoding marker cut after the two signature bytes. -/
theorem c3_truncated_input_decodes :
    Load [4, 8, 47, 0, 0, 6, 58] = .ok (.regexp "") ⟨[], [], []⟩ := by
  rfl

theorem hlookup_hashInsert (m : List (String × RValue)) (k : String) (v : RValue) :
    hlookup (hashInsert m k v) k = some v := by
  induction m with
  | nil => simp [hashInsert, hlookup]
  | cons p t ih =>
    obtain ⟨k1, w⟩ := p
    by_cases hk : k1 = k
    · subst hk
      simp [hashInsert, hlookup]
    · by_cases ha : t.any (fun p => p.1 = k)
      · have ha2 : ((k1, w) :: t).any (fun p => p.1 = k) := by
          simp [List.any_cons, ha]
        rw [hashInsert, if_pos ha] at ih
        simp only [hashInsert, if_pos ha2, List.map_cons]
        show hlookup ((if (k1, w).1 = k then (k, v) else (k1, w)) :: _) k = some v
        rw [if_neg (show ¬ ((k1, w).1 = k) from hk)]
        rw [hlookup, if_neg hk]
        exact ih
      · have ha2 : ¬ ((k1, w) :: t).any (fun p => p.1 = k) := by
          simp [List.any_cons, ha, hk]
        rw [hashInsert, if_neg ha] at ih
        simp only [hashInsert, if_neg ha2, List.cons_append]
        rw [hlookup, if_neg hk]
        exact ih

theorem readHashLoop_fold (rd : St → Res RValue) :
    ∀ (n : Nat) (acc : List (String × RValue)) (s : St)
      (m : List (String × RValue)) (s1 : St),
      readHashLoop rd n acc s = .ok (.hash m) s1 →
      ∃ ps : List (RValue × RValue),
        m = ps.foldl (fun a p => hashInsert a (normKey p.1) p.2) acc := by
  intro n
  induction n with
  | zero =>
    intro acc s m s1 h
    simp only [readHashLoop, Res.ok.injEq, RValue.hash.injEq] at h
    exact ⟨[], h.1.symm⟩
  | succ n ih =>
    intro acc s m s1 h
    cases hr : rd s with
    | ok k sk =>
      simp only [readHashLoop, hr] at h
      cases hv : rd sk with
      | ok v sv =>
        simp only [hv] at h
        obtain ⟨ps, hps⟩ := ih _ _ _ _ h
        exact ⟨(k, v) :: ps, by simpa using hps⟩
      | err v e s2 => simp only [hv] at h; exact absurd h (by simp)
      | panic msg => simp only [hv] at h; exact absurd h (by simp)
      | oom => simp only [hv] at h; exact absurd h (by simp)
    | err v e s2 => simp only [readHashLoop, hr] at h; exact absurd h (by simp)
    | panic msg => simp only [readHashLoop, hr] at h; exact absurd h (by simp)
    | oom => simp only [readHashLoop, hr] at h; exact absurd h (by simp)

/-- C7: hash key normalization: a string key passes through unchanged,
an integer key becomes its decimal text, any other decoded key becomes
the empty key; insertion is last-write-wins (a later pair under the
same normalized key overwrites the earlier value); every hash produced
by the pair loop is a fold of such normalized insertions over the
decoded pairs; and the spec example hash with integer key 1 and value
"a" decodes to the mapping "1" to "a". -/
theorem c7_hash_keys :
    (∀ s, normKey (.str s) = s) ∧
    (∀ i : Int, normKey (.int i) = toString i) ∧
    (∀ v, (∀ t, v ≠ .str t) → (∀ i, v ≠ .int i) → normKey v = "") ∧
    (∀ m k v1 v2, hlookup (hashInsert (hashInsert m k v1) k v2) k = some v2) ∧
    (∀ f n acc s m s1, readHashLoop (read f) n acc s = .ok (.hash m) s1 →
      ∃ ps : List (RValue × RValue),
        m = ps.foldl (fun a p => hashInsert a (normKey p.1) p.2) acc) ∧
    Load [4, 8, 123, 6, 105, 6, 34, 6, 97] = .ok (.hash [("1", .str "a")]) ⟨[], [], []⟩ := by
  refine ⟨fun s => rfl, fun i => rfl, ?_, ?_, ?_, ?_⟩
  · intro v hs hi
    cases v with
    | str t => exact absurd rfl (hs t)
    | int i => exact absurd rfl (hi i)
    | nil => rfl
    | bool b => rfl
    | float t => rfl
    | arr xs => rfl
    | hash m => rfl
    | regexp p => rfl
  · intro m k v1 v2
    exact hlookup_hashInsert _ _ _
  · intro f n acc s m s1 h
    exact readHashLoop_fold (read f) n acc s m s1 h
  · rfl

/-- C7 witness: integer key 1 normalizes to "1"; inserting twice under
one key keeps the later value; the one-pair loop run on the spec
example bytes is a fold of normalized insertions. -/
theorem c7_witness :
    normKey (.int 1) = "1" ∧
    hlookup (hashInsert (hashInsert [] "k" (.int 1)) "k" (.int 2)) "k" =
      some (.int 2) ∧
    (∃ ps : List (RValue × RValue),
      ([("1", RValue.str "a")] : List (String × RValue)) =
        ps.foldl (fun a p => hashInsert a (normKey p.1) p.2) []) := by
  refine ⟨?_, c7_hash_keys.2.2.2.1 [] "k" (.int 1) (.int 2), ?_⟩
  · exact c7_hash_keys.2.1 1
  · exact c7_hash_keys.2.2.2.2.1 2 1 [] ⟨[105, 6, 34, 6, 97], [], []⟩
      [("1", RValue.str "a")] ⟨[], [], []⟩ rfl
